import Mathlib

/-!
Verification of the Corsica drinking-water quality pipeline (src/main.py).

The program is a linear batch pipeline over tabular data: it loads per-year
sample files, filters rows whose conclusion text marks the sample as
non-conforming, aggregates counts by (year, month, commune), and renders a
heatmap, a ranked bar chart and a choropleth map.  We embed the dataframe
operations shallowly: a dataframe is a list of rows, pandas groupby/filter/
merge/pivot/sort become list functions, and the relevant library semantics
(Python str.upper, the unidecode transliteration table, the pandas sorting
and quantile routines, numpy argsort) are translated faithfully for the
value repertoire exercised by the program and the theorems below.
-/

namespace Potable

/-! ### String normalization (src/main.py lines 16-17 and 23)

Python strings are Unicode; we model a string as the Lean `String` and the
per-character behaviour of `str.upper` and `unidecode.unidecode` on the
repertoire relevant to commune names: ASCII plus the Latin-1 letters.
Characters outside that repertoire are returned unchanged (they do not occur
in any input considered in this file). -/

/-- Python `str.upper` on one character, restricted to ASCII and Latin-1:
lowercase ASCII and the Latin-1 lowercase letters map to their uppercase
forms (a shift by 32, excluding the division sign), the sharp s expands to
"SS", and `ÿ` maps to `Ÿ` (U+0178). -/
def pyUpperChar (c : Char) : List Char :=
  if c = 'ß' then ['S', 'S']
  else if 'a' ≤ c ∧ c ≤ 'z' then [Char.ofNat (c.toNat - 32)]
  else if 'à' ≤ c ∧ c ≤ 'þ' ∧ c ≠ '÷' then [Char.ofNat (c.toNat - 32)]
  else if c = 'ÿ' then ['Ÿ']
  else [c]

/-- Python `str.upper`, applied characterwise.  This models both the pandas
`Series.str.upper()` call on line 23 and the `.upper()` on line 17. -/
def str_upper (s : String) : String := ⟨s.data.flatMap pyUpperChar⟩

/-- The `unidecode` transliteration of one character: ASCII (code points up
to 127) is returned unchanged, and the Latin-1 letters are mapped to their
ASCII base letters following the unidecode x000 table. -/
def unidecodeChar (c : Char) : List Char :=
  if c.toNat ≤ 127 then [c]
  else if c ∈ ['À', 'Á', 'Â', 'Ã', 'Ä', 'Å'] then ['A']
  else if c = 'Æ' then ['A', 'E']
  else if c = 'Ç' then ['C']
  else if c ∈ ['È', 'É', 'Ê', 'Ë'] then ['E']
  else if c ∈ ['Ì', 'Í', 'Î', 'Ï'] then ['I']
  else if c = 'Ð' then ['D']
  else if c = 'Ñ' then ['N']
  else if c ∈ ['Ò', 'Ó', 'Ô', 'Õ', 'Ö', 'Ø'] then ['O']
  else if c ∈ ['Ù', 'Ú', 'Û', 'Ü'] then ['U']
  else if c = 'Ý' then ['Y']
  else if c = 'Þ' then ['T', 'h']
  else if c = 'ß' then ['s', 's']
  else if c ∈ ['à', 'á', 'â', 'ã', 'ä', 'å'] then ['a']
  else if c = 'æ' then ['a', 'e']
  else if c = 'ç' then ['c']
  else if c ∈ ['è', 'é', 'ê', 'ë'] then ['e']
  else if c ∈ ['ì', 'í', 'î', 'ï'] then ['i']
  else if c = 'ð' then ['d']
  else if c = 'ñ' then ['n']
  else if c ∈ ['ò', 'ó', 'ô', 'õ', 'ö', 'ø'] then ['o']
  else if c ∈ ['ù', 'ú', 'û', 'ü'] then ['u']
  else if c ∈ ['ý', 'ÿ'] then ['y']
  else if c = 'þ' then ['t', 'h']
  else [c]

/-- The `unidecode.unidecode` transliteration, applied characterwise. -/
def unidecode (s : String) : String := ⟨s.data.flatMap unidecodeChar⟩

/-- Line 16-17: `remove_accents_and_uppercase(str_val)` returns
`unidecode(str_val).upper()`. -/
def remove_accents_and_uppercase (s : String) : String := str_upper (unidecode s)

/-- If every character of a list is ASCII, transliterating each of them is
the identity. -/
theorem flatMap_unidecodeChar_ascii (cs : List Char) (h : ∀ c ∈ cs, c.toNat ≤ 127) :
    cs.flatMap unidecodeChar = cs := by
  induction cs with
  | nil => rfl
  | cons c cs ih =>
    have hc : c.toNat ≤ 127 := h c (List.mem_cons_self c cs)
    have hcs : ∀ x ∈ cs, x.toNat ≤ 127 := fun x hx => h x (List.mem_cons_of_mem c hx)
    simp only [List.flatMap_cons]
    rw [ih hcs]
    unfold unidecodeChar
    rw [if_pos hc]
    rfl

/-- If every character of `s` is ASCII, `unidecode` leaves `s` unchanged. -/
theorem unidecode_ascii (s : String) (h : ∀ c ∈ s.data, c.toNat ≤ 127) :
    unidecode s = s := by
  unfold unidecode
  rw [flatMap_unidecodeChar_ascii s.data h]

/-- C1, counterexample.  The claim asserts that the commune-name
normalization is applied identically to the sample table and the boundary
table, so that an accented sample-name variant of a boundary name produces
the same join key.  In the code the sample names pass only through
`str.upper` (line 23) while the boundary names pass through
`remove_accents_and_uppercase` (line 141).  For the accented sample name
"Ãjaccio-le-vieux", which is an accented variant of the boundary name
"Ajaccio-le-vieux" (third conjunct: both normalize to the same accent-free
uppercase form), the two join keys differ, so the left join cannot match
this row to its polygon. -/
theorem C1_counterexample :
    str_upper "Ãjaccio-le-vieux" ≠ remove_accents_and_uppercase "Ajaccio-le-vieux" ∧
    str_upper "Ãjaccio-le-vieux" = "ÃJACCIO-LE-VIEUX" ∧
    remove_accents_and_uppercase "Ãjaccio-le-vieux" =
      remove_accents_and_uppercase "Ajaccio-le-vieux" ∧
    remove_accents_and_uppercase "Ajaccio-le-vieux" = "AJACCIO-LE-VIEUX" := by
  refine ⟨by decide, by decide, by decide, by decide⟩

/-- C1, amended.  Sample commune names are normalized with `str.upper`
alone, while boundary names are normalized with accent removal followed by
uppercasing; the two keys coincide exactly for sample names made of ASCII
characters, so only accent-free sample names are matched to their polygons
by the join. -/
theorem C1_amended (s : String) (h : ∀ c ∈ s.data, c.toNat ≤ 127) :
    str_upper s = remove_accents_and_uppercase s := by
  unfold remove_accents_and_uppercase
  rw [unidecode_ascii s h]

/-- C1, witness for the amended theorem at the ASCII name
"Ajaccio-le-vieux". -/
theorem C1_amended_witness :
    str_upper "Ajaccio-le-vieux" = remove_accents_and_uppercase "Ajaccio-le-vieux" :=
  C1_amended "Ajaccio-le-vieux" (by decide)

/-! ### Data model (src/main.py lines 19-25)

A raw sample row carries the parsed sampling date (`pd.to_datetime` on line
20 parses the `dateprel` text into a calendar date; we embed the row with
the date already parsed), the principal commune name and the optional
free-text conclusion (`NaN` cells of a text column are `none`). -/

/-- A calendar date, as produced by `pd.to_datetime`; only the year and
month components are consumed by the program (lines 21-22). -/
structure Date where
  year : Nat
  month : Nat
  day : Nat
deriving DecidableEq

/-- One row of a raw per-year sample file, with the columns the transformer
uses: `dateprel`, `nomcommuneprinc`, `conclusionprel`. -/
structure RawRow where
  dateprel : Date
  nomcommuneprinc : String
  conclusionprel : Option String
deriving DecidableEq

/-- One row of the aggregated table produced by
`groupby(['year','month','nomcommuneprinc']).size().reset_index(name='count')`. -/
structure CountRow where
  year : Nat
  month : Nat
  nomcommuneprinc : String
  count : Nat
deriving DecidableEq

/-- Substring test helper: does the second list start with the first one. -/
def listStartsWith : List Char → List Char → Bool
  | [], _ => true
  | _ :: _, [] => false
  | p :: ps, c :: cs => p == c && listStartsWith ps cs

/-- Substring test helper: does the pattern occur contiguously in the
list. -/
def listContainsSub (pat : List Char) : List Char → Bool
  | [] => listStartsWith pat []
  | c :: cs => listStartsWith pat (c :: cs) || listContainsSub pat cs

/-- Python `pat in s` and the regex-free core of `Series.str.contains`:
case-sensitive containment of `pat` in `s` as a contiguous substring. -/
def str_contains_sub (s pat : String) : Bool := listContainsSub pat.data s.data

/-- The apostrophe character, written via its code point. -/
def apos : Char := Char.ofNat 39

/-- The first alternative of the filter pattern on line 24 (hyphenated). -/
def phrase_hyphen : String := "Eau d" ++ apos.toString ++ "alimentation non-conforme"

/-- The second alternative of the filter pattern on line 24 (spaced). -/
def phrase_space : String := "Eau d" ++ apos.toString ++ "alimentation non conforme"

/-- Line 24: `df['conclusionprel'].str.contains("A|B", na=False)`.  The
pattern is a regular expression whose only metacharacter is the alternation
bar, so a cell matches when it contains either phrase as a substring;
missing cells (`na=False`) do not match. -/
def conclusion_matches : Option String → Bool
  | none => false
  | some s => str_contains_sub s phrase_hyphen || str_contains_sub s phrase_space

/-- Line 23: uppercase the commune-name column of a row. -/
def upperRow (r : RawRow) : RawRow :=
  { r with nomcommuneprinc := str_upper r.nomcommuneprinc }

/-- The group key of a (name-uppercased) row: year and month derived from
the parsed date (lines 21-22) and the commune name. -/
def rowKey (r : RawRow) : Nat × Nat × String :=
  (r.dateprel.year, r.dateprel.month, r.nomcommuneprinc)

/-- Code-point lexicographic comparison of character lists, the order
Python uses to compare strings. -/
def charListLt : List Char → List Char → Bool
  | [], [] => false
  | [], _ :: _ => true
  | _ :: _, [] => false
  | a :: as, b :: bs => a < b || (a == b && charListLt as bs)

/-- The non-strict string order by code points. -/
def strLe (a b : String) : Prop := charListLt a.data b.data = true ∨ a = b

instance : DecidableRel strLe := fun a b => by
  unfold strLe
  exact inferInstance

/-- Lexicographic order on group keys; pandas `groupby(sort=True)` emits the
groups in this order. -/
def groupKeyLe (a b : Nat × Nat × String) : Prop :=
  a.1 < b.1 ∨ (a.1 = b.1 ∧ (a.2.1 < b.2.1 ∨ (a.2.1 = b.2.1 ∧ strLe a.2.2 b.2.2)))

instance : DecidableRel groupKeyLe := fun a b => by
  unfold groupKeyLe
  exact inferInstance

/-- Lines 20-24 of `process_dataframe`: derive year and month, uppercase the
commune names, and keep exactly the rows whose conclusion text matches the
non-conformity pattern. -/
def df_filtered (df : List RawRow) : List RawRow :=
  (df.map upperRow).filter (fun r => conclusion_matches r.conclusionprel)

/-- The distinct (year, month, commune) keys of the filtered rows, in the
sorted order pandas `groupby(sort=True)` emits the groups. -/
def pdKeys (df : List RawRow) : List (Nat × Nat × String) :=
  List.insertionSort groupKeyLe ((df_filtered df).map rowKey).dedup

/-- Line 25 and the whole of `process_dataframe`: group the filtered rows by
(year, month, commune) and emit one row per group carrying the group size. -/
def process_dataframe (df : List RawRow) : List CountRow :=
  (pdKeys df).map
    (fun k => ⟨k.1, k.2.1, k.2.2,
      (df_filtered df).countP (fun r => decide (rowKey r = k))⟩)

/-- The (year, month, commune) key of an aggregated row. -/
def countKey (g : CountRow) : Nat × Nat × String :=
  (g.year, g.month, g.nomcommuneprinc)

/-! ### Generic grouping lemmas -/

/-- Summing the indicator of one element over a duplicate-free list that
contains it gives one. -/
theorem sum_indicator_one {K : Type} [DecidableEq K] (x : K) (ks : List K)
    (hnd : ks.Nodup) (hx : x ∈ ks) :
    (ks.map (fun k => if x = k then 1 else 0)).sum = 1 := by
  induction ks with
  | nil => cases hx
  | cons k ks ih =>
    rcases List.mem_cons.mp hx with h | h
    · subst h
      have hnotin : x ∉ ks := (List.nodup_cons.mp hnd).1
      simp only [List.map_cons, List.sum_cons]
      have hzero : (ks.map (fun k => if x = k then 1 else 0)).sum = 0 := by
        apply List.sum_eq_zero
        intro n hn
        rcases List.mem_map.mp hn with ⟨k', hk', hval⟩
        have hne : x ≠ k' := fun he => hnotin (he ▸ hk')
        have hn0 : n = if x = k' then 1 else 0 := hval.symm
        rw [hn0, if_neg hne]
      simp [hzero]
    · have hnd' : ks.Nodup := (List.nodup_cons.mp hnd).2
      have hne : x ≠ k := by
        intro he
        exact (List.nodup_cons.mp hnd).1 (he ▸ h)
      simp only [List.map_cons, List.sum_cons, if_neg hne]
      rw [ih hnd' h]

/-- Counting, for each key of a covering duplicate-free key list, the rows
with that key, and summing, recovers the number of rows. -/
theorem sum_countP_keys {K R : Type} [DecidableEq K] (key : R → K) (rows : List R)
    (ks : List K) (hnd : ks.Nodup) (hcov : ∀ r ∈ rows, key r ∈ ks) :
    (ks.map (fun k => rows.countP (fun r => decide (key r = k)))).sum = rows.length := by
  induction rows with
  | nil => simp
  | cons r rest ih =>
    have hcov' : ∀ x ∈ rest, key x ∈ ks := fun x hx => hcov x (List.mem_cons_of_mem r hx)
    have hsplit : ∀ k : K,
        (r :: rest).countP (fun x => decide (key x = k)) =
          rest.countP (fun x => decide (key x = k)) + (if key r = k then 1 else 0) := by
      intro k
      rw [List.countP_cons]
      by_cases h : key r = k <;> simp [h]
    calc (ks.map (fun k => (r :: rest).countP (fun x => decide (key x = k)))).sum
        = (ks.map (fun k =>
            rest.countP (fun x => decide (key x = k)) + (if key r = k then 1 else 0))).sum := by
          congr 1
          exact List.map_congr_left (fun k _ => hsplit k)
      _ = (ks.map (fun k => rest.countP (fun x => decide (key x = k)))).sum +
            (ks.map (fun k => if key r = k then 1 else 0)).sum := List.sum_map_add
      _ = rest.length + 1 := by
          rw [ih hcov', sum_indicator_one (key r) ks hnd (hcov r (List.mem_cons_self r rest))]
      _ = (r :: rest).length := by simp

/-- Counting occurrences of a member of a duplicate-free list gives one. -/
theorem countP_eq_one_of_nodup_mem {K : Type} [DecidableEq K] (x : K) (ks : List K)
    (hnd : ks.Nodup) (hx : x ∈ ks) :
    ks.countP (fun k => decide (k = x)) = 1 := by
  induction ks with
  | nil => cases hx
  | cons k ks ih =>
    rcases List.mem_cons.mp hx with h | h
    · subst h
      have hnotin : x ∉ ks := (List.nodup_cons.mp hnd).1
      rw [List.countP_cons]
      have hzero : ks.countP (fun j => decide (j = x)) = 0 := by
        rw [List.countP_eq_zero]
        intro a ha
        simp only [decide_eq_true_eq]
        exact fun he => hnotin (he ▸ ha)
      simp [hzero]
    · have hne : k ≠ x := by
        intro he
        exact (List.nodup_cons.mp hnd).1 (he ▸ h)
      rw [List.countP_cons]
      simp only [decide_eq_true_eq, if_neg hne]
      rw [ih (List.nodup_cons.mp hnd).2 h]

/-! ### Facts about the transformer keys -/

/-- The group-key list of the transformer has no duplicates. -/
theorem pdKeys_nodup (df : List RawRow) : (pdKeys df).Nodup :=
  (List.perm_insertionSort groupKeyLe _).symm.nodup
    (List.nodup_dedup (((df_filtered df)).map rowKey))

/-- Every filtered row has its key among the transformer group keys. -/
theorem pdKeys_cover (df : List RawRow) (r : RawRow) (hr : r ∈ df_filtered df) :
    rowKey r ∈ pdKeys df := by
  have h1 : rowKey r ∈ (df_filtered df).map rowKey := List.mem_map_of_mem rowKey hr
  have h2 : rowKey r ∈ ((df_filtered df).map rowKey).dedup := List.mem_dedup.mpr h1
  exact ((List.perm_insertionSort groupKeyLe _).mem_iff).mpr h2

/-- The keys of the aggregated rows are exactly the transformer group
keys. -/
theorem process_dataframe_map_countKey (df : List RawRow) :
    (process_dataframe df).map countKey = pdKeys df := by
  unfold process_dataframe
  rw [List.map_map]
  exact List.map_id _

/-! ### Loader (src/main.py lines 27-35 and 136) -/

/-- Lines 27-35: start from an empty combined frame and, for each year of
the range and each file found for that year, transform the file with
`process_dataframe` and append (`pd.concat`) its aggregated rows to the
running combined result.  The file contents are abstracted as the parsed
row lists the `pd.read_csv` calls produce. -/
def load_and_process_data (years : List Nat) (filesOf : Nat → List (List RawRow)) :
    List CountRow :=
  years.foldl
    (fun acc y => (filesOf y).foldl (fun acc2 f => acc2 ++ process_dataframe f) acc) []

/-- Line 136: the fixed year range `range(2016, 2024)`. -/
def year_range : List Nat := List.range' 2016 8

/-- Folding appends of transformed pieces concatenates all the pieces. -/
theorem foldl_append_flatMap {α β : Type} (f : α → List β) :
    ∀ (l : List α) (acc : List β),
      l.foldl (fun a x => a ++ f x) acc = acc ++ l.flatMap f
  | [], acc => by simp
  | x :: xs, acc => by
    simp only [List.foldl_cons, List.flatMap_cons]
    rw [foldl_append_flatMap f xs (acc ++ f x), List.append_assoc]

/-- The combined loader output is the concatenation of the per-file
aggregated tables, over the years in order. -/
theorem load_and_process_data_eq_flatMap (years : List Nat)
    (filesOf : Nat → List (List RawRow)) :
    load_and_process_data years filesOf =
      years.flatMap (fun y => (filesOf y).flatMap process_dataframe) := by
  unfold load_and_process_data
  suffices h : ∀ acc : List CountRow,
      years.foldl
        (fun acc y => (filesOf y).foldl (fun a f => a ++ process_dataframe f) acc) acc =
        acc ++ years.flatMap (fun y => (filesOf y).flatMap process_dataframe) by
    simpa using h []
  induction years with
  | nil => intro acc; simp
  | cons y ys ih =>
    intro acc
    simp only [List.foldl_cons, List.flatMap_cons]
    rw [ih ((filesOf y).foldl (fun a f => a ++ process_dataframe f) acc),
      foldl_append_flatMap process_dataframe (filesOf y) acc, List.append_assoc]

/-! ### Claims C2, C3, C4 -/

/-- C2, counterexample input: one year of the range has two files whose
single raw rows fall in the same (year, month, commune) group. -/
def c2row : RawRow := ⟨⟨2020, 3, 15⟩, "Ajaccio", some phrase_hyphen⟩

/-- C2, counterexample file layout: two files for 2020, none elsewhere. -/
def c2filesOf : Nat → List (List RawRow) := fun y =>
  if y = 2020 then [[c2row], [c2row]] else []

/-- C2, counterexample.  The claim asserts the combined loader output has at
most one row per (year, month, commune) tuple.  With two 2020 files each
contributing a sample of the same group, the code transforms and aggregates
each file separately (lines 31-34) and concatenates the per-file results, so
the combined table carries two rows with the key (2020, 3, "AJACCIO"). -/
theorem C2_counterexample :
    ¬ ((load_and_process_data year_range c2filesOf).countP
        (fun g => decide (countKey g = (2020, 3, "AJACCIO"))) ≤ 1) := by
  decide

/-- C2, amended.  Uniqueness of (year, month, commune) keys holds for the
aggregated table of each single file, and the combined loader output is the
concatenation of the per-file aggregates; a year with several files sharing
a group therefore yields several rows for that tuple. -/
theorem C2_amended :
    (∀ df : List RawRow, ((process_dataframe df).map countKey).Nodup) ∧
    (∀ (years : List Nat) (filesOf : Nat → List (List RawRow)),
      load_and_process_data years filesOf =
        years.flatMap (fun y => (filesOf y).flatMap process_dataframe)) := by
  constructor
  · intro df
    rw [process_dataframe_map_countKey]
    exact pdKeys_nodup df
  · exact load_and_process_data_eq_flatMap

/-- C3.  The transformer keeps exactly the rows whose conclusion text
contains one of the two target phrases as a substring, case-sensitively
(first and second conjuncts); a missing conclusion never matches and is
excluded without error (third conjunct); and every kept row is counted in
exactly one (year, month, commune) group of the aggregated output (fourth
conjunct). -/
theorem C3_filter_and_unique_group (df : List RawRow) :
    df_filtered df = (df.filter (fun r => conclusion_matches r.conclusionprel)).map upperRow ∧
    (∀ r ∈ df, (conclusion_matches r.conclusionprel = true ↔
      ∃ s, r.conclusionprel = some s ∧
        (str_contains_sub s phrase_hyphen = true ∨ str_contains_sub s phrase_space = true))) ∧
    (∀ r ∈ df, r.conclusionprel = none → conclusion_matches r.conclusionprel = false) ∧
    (∀ r ∈ df_filtered df,
      (process_dataframe df).countP (fun g => decide (countKey g = rowKey r)) = 1) := by
  refine ⟨?_, ?_, ?_, ?_⟩
  · unfold df_filtered
    rw [List.filter_map]
    rfl
  · intro r _
    cases hc : r.conclusionprel with
    | none => simp [conclusion_matches]
    | some s => simp [conclusion_matches, Bool.or_eq_true]
  · intro r _ h
    rw [h]
    rfl
  · intro r hr
    unfold process_dataframe
    rw [List.countP_map]
    have hcomp : ((fun g => decide (countKey g = rowKey r)) ∘
        (fun k : Nat × Nat × String => (⟨k.1, k.2.1, k.2.2,
          (df_filtered df).countP (fun r => decide (rowKey r = k))⟩ : CountRow))) =
        fun k => decide (k = rowKey r) := by
      funext k
      rfl
    rw [hcomp]
    exact countP_eq_one_of_nodup_mem (rowKey r) (pdKeys df) (pdKeys_nodup df)
      (pdKeys_cover df r hr)

/-- C3, witness: in a one-row table whose conclusion is the hyphenated
phrase, the kept row is counted in exactly one group. -/
theorem C3_witness :
    (process_dataframe [⟨⟨2020, 3, 15⟩, "Ajaccio", some phrase_hyphen⟩]).countP
      (fun g => decide (countKey g =
        rowKey (upperRow ⟨⟨2020, 3, 15⟩, "Ajaccio", some phrase_hyphen⟩))) = 1 :=
  (C3_filter_and_unique_group [⟨⟨2020, 3, 15⟩, "Ajaccio", some phrase_hyphen⟩]).2.2.2
    (upperRow ⟨⟨2020, 3, 15⟩, "Ajaccio", some phrase_hyphen⟩) (by decide)

/-- C4, example input: four Ajaccio samples of March 2020 with the two
non-conforming phrase variants (twice and once) and one conforming row. -/
def ajaccio_example : List RawRow :=
  [⟨⟨2020, 3, 2⟩, "Ajaccio", some phrase_hyphen⟩,
   ⟨⟨2020, 3, 9⟩, "Ajaccio", some phrase_hyphen⟩,
   ⟨⟨2020, 3, 16⟩, "Ajaccio", some phrase_space⟩,
   ⟨⟨2020, 3, 23⟩, "Ajaccio", some "Eau conforme"⟩]

/-- C4.  Aggregation is count-preserving: the counts of the aggregated rows
sum to the number of filter-matching raw rows; and on the Ajaccio example
the aggregated count for (2020, 3, "AJACCIO") is 3. -/
theorem C4_count_preserving :
    (∀ df : List RawRow,
      ((process_dataframe df).map (fun g => g.count)).sum = (df_filtered df).length) ∧
    (process_dataframe ajaccio_example).filter
      (fun g => decide (countKey g = (2020, 3, "AJACCIO"))) =
      [⟨2020, 3, "AJACCIO", 3⟩] := by
  constructor
  · intro df
    unfold process_dataframe
    rw [List.map_map]
    exact sum_countP_keys rowKey (df_filtered df) (pdKeys df) (pdKeys_nodup df)
      (pdKeys_cover df)
  · decide

/-! ### Empty-input behaviour (claim C10)

`pd.DataFrame()` is a frame with no rows and no columns; concatenating
frames keeps the columns of the first non-empty operand; grouping by a
column a frame does not have raises a `KeyError`.  We track the column list
alongside the rows to model this. -/

/-- A dataframe with its column list, as needed to model the empty
`pd.DataFrame()` and the `KeyError` on grouping by a missing column. -/
structure PDFrame where
  columns : List String
  frows : List CountRow
deriving DecidableEq

/-- Line 28: `pd.DataFrame()` has no rows and no columns. -/
def empty_frame : PDFrame := ⟨[], []⟩

/-- The columns of every `process_dataframe` output. -/
def count_columns : List String := ["year", "month", "nomcommuneprinc", "count"]

/-- `pd.concat` of the running combined frame with a per-file aggregate:
rows are appended, and the columns are those of the first operand unless it
is the fresh empty frame. -/
def concat_frames (a b : PDFrame) : PDFrame :=
  ⟨if a.columns.isEmpty then b.columns else a.columns, a.frows ++ b.frows⟩

/-- The aggregated table of one file together with its columns. -/
def process_frame (f : List RawRow) : PDFrame :=
  ⟨count_columns, process_dataframe f⟩

/-- Lines 27-35 at the frame level: the combined result starts as the empty
frame and accumulates each per-file aggregate with `pd.concat`. -/
def load_and_process_frames (years : List Nat) (filesOf : Nat → List (List RawRow)) :
    PDFrame :=
  years.foldl
    (fun acc y => (filesOf y).foldl (fun acc2 f => concat_frames acc2 (process_frame f)) acc)
    empty_frame

/-- Lines 37-39: the first step of `create_heatmap` groups the combined
frame by the `year` and `month` columns; pandas raises a `KeyError` when a
grouping column is absent, which we model as an error value. -/
def heatmap_groupby_step (df : PDFrame) : Except String (List CountRow) :=
  if "year" ∈ df.columns then
    if "month" ∈ df.columns then .ok df.frows
    else .error "KeyError: month"
  else .error "KeyError: year"

/-- C10.  When the file glob matches no input file for any year of the
fixed 2016-2023 range, the combined loader result is the completely empty
frame (no rows and no columns), and the heatmap stage then fails on the
missing `year` grouping column, so the run aborts instead of producing
empty artifacts. -/
theorem C10_empty_input (filesOf : Nat → List (List RawRow))
    (h : ∀ y ∈ year_range, filesOf y = []) :
    load_and_process_frames year_range filesOf = empty_frame ∧
    heatmap_groupby_step (load_and_process_frames year_range filesOf) =
      .error "KeyError: year" := by
  have hload : ∀ (ys : List Nat), (∀ y ∈ ys, filesOf y = []) →
      ys.foldl
        (fun acc y => (filesOf y).foldl
          (fun acc2 f => concat_frames acc2 (process_frame f)) acc)
        empty_frame = empty_frame := by
    intro ys
    induction ys with
    | nil => intro _; rfl
    | cons y ys ih =>
      intro hys
      simp only [List.foldl_cons]
      rw [hys y (List.mem_cons_self y ys), List.foldl_nil]
      exact ih (fun x hx => hys x (List.mem_cons_of_mem y hx))
  have h1 : load_and_process_frames year_range filesOf = empty_frame :=
    hload year_range h
  exact ⟨h1, by rw [h1]; rfl⟩

/-- C10, witness: with no files at all, the loader yields the empty frame
and the heatmap grouping step fails. -/
theorem C10_empty_input_witness :
    load_and_process_frames year_range (fun _ => []) = empty_frame ∧
    heatmap_groupby_step (load_and_process_frames year_range (fun _ => [])) =
      .error "KeyError: year" :=
  C10_empty_input (fun _ => []) (fun _ _ => rfl)

/-! ### Heatmap renderer (src/main.py lines 37-48) -/

/-- Lexicographic order on (year, month) keys; pandas groupby emits the
(year, month) groups in this order. -/
def pairLe (a b : Nat × Nat) : Prop := a.1 < b.1 ∨ (a.1 = b.1 ∧ a.2 ≤ b.2)

instance : DecidableRel pairLe := fun a b => by
  unfold pairLe
  exact inferInstance

/-- The distinct (year, month) keys of the aggregated table, in groupby
order. -/
def hm_keys (rows : List CountRow) : List (Nat × Nat) :=
  List.insertionSort pairLe ((rows.map (fun r => (r.year, r.month))).dedup)

/-- The summed count of a (year, month) group. -/
def hm_sum (rows : List CountRow) (k : Nat × Nat) : Nat :=
  ((rows.filter (fun r => decide ((r.year, r.month) = k))).map (fun r => r.count)).sum

/-- Line 39: `df.groupby(['year','month']).agg({'count':'sum'}).reset_index()`,
one row per (year, month) key carrying the summed count over communes. -/
def heatmap_df (rows : List CountRow) : List ((Nat × Nat) × Nat) :=
  (hm_keys rows).map (fun k => (k, hm_sum rows k))

/-- Line 40: the pivot `heatmap_df.pivot(index="month", columns="year",
values="count")` read at cell (month m, year y); a (month, year)
combination absent from the grouped table is a missing (blank) cell,
modelled as `none`. -/
def heatmap_cell (rows : List CountRow) (m y : Nat) : Option Nat :=
  ((heatmap_df rows).find? (fun p => decide (p.1 = (y, m)))).map (fun p => p.2)

/-- Line 40: the index (row labels) of the pivoted grid: the distinct month
values present in the grouped table, in increasing order. -/
def heatmap_index (rows : List CountRow) : List Nat :=
  List.insertionSort (· ≤ ·) (((heatmap_df rows).map (fun p => p.1.2)).dedup)

/-- Line 47: the twelve fixed French month labels assigned to tick
positions 0 to 11 unconditionally. -/
def month_labels : List String :=
  ["Jan", "Fév", "Mar", "Avr", "Mai", "Juin", "Juil", "Août", "Sep", "Oct", "Nov", "Déc"]

/-- Membership in the (year, month) key list of the heatmap groupby. -/
theorem hm_keys_mem (rows : List CountRow) (k : Nat × Nat) :
    k ∈ hm_keys rows ↔ ∃ r ∈ rows, (r.year, r.month) = k := by
  unfold hm_keys
  rw [(List.perm_insertionSort pairLe _).mem_iff, List.mem_dedup, List.mem_map]

/-- Looking a present key up in a keyed map produces its value. -/
theorem find?_map_pair {K V : Type} [DecidableEq K] (g : K → V) (x : K) :
    ∀ ks : List K, x ∈ ks →
      ((ks.map (fun k => (k, g k))).find? (fun p => decide (p.1 = x))) = some (x, g x)
  | [], hx => absurd hx (List.not_mem_nil x)
  | k :: ks, hx => by
    simp only [List.map_cons, List.find?_cons]
    by_cases hk : k = x
    · subst hk
      simp
    · have hd : (decide ((k, g k).1 = x)) = false := by simp [hk]
      rw [hd]
      have hx' : x ∈ ks := by
        rcases List.mem_cons.mp hx with h | h
        · exact absurd h.symm hk
        · exact h
      exact find?_map_pair g x ks hx'

/-- C8.  The heatmap pivot cell at (month m, year y) is the sum over all
communes of the aggregated counts for that (year, month) pair when the pair
occurs in the table, and a blank (missing) cell, not zero, otherwise. -/
theorem C8_heatmap_cell (rows : List CountRow) (m y : Nat) :
    heatmap_cell rows m y =
      if rows.any (fun r => decide ((r.year, r.month) = (y, m))) then
        some (((rows.filter (fun r => decide ((r.year, r.month) = (y, m)))).map
          (fun r => r.count)).sum)
      else none := by
  have hbridge : (rows.any (fun r => decide ((r.year, r.month) = (y, m))) = true) ↔
      (y, m) ∈ hm_keys rows := by
    rw [List.any_eq_true, hm_keys_mem]
    simp only [decide_eq_true_eq]
  by_cases h : rows.any (fun r => decide ((r.year, r.month) = (y, m))) = true
  · rw [if_pos h]
    unfold heatmap_cell heatmap_df
    rw [find?_map_pair (hm_sum rows) (y, m) (hm_keys rows) (hbridge.mp h)]
    rfl
  · rw [if_neg h]
    unfold heatmap_cell heatmap_df
    have hnone : ((hm_keys rows).map (fun k => (k, hm_sum rows k))).find?
        (fun p => decide (p.1 = (y, m))) = none := by
      rw [List.find?_eq_none]
      rintro p hp
      rcases List.mem_map.mp hp with ⟨k, hk, rfl⟩
      simp only [decide_eq_true_eq]
      intro hky
      exact h (hbridge.mpr (hky ▸ hk))
    rw [hnone]
    rfl

/-- C9, counterexample.  The claim asserts the pivoted grid has all twelve
months as rows; for a table whose only row is dated month 5, the pivot
index is `[5]`, a single row, while the twelve French labels are assigned
to tick positions 0-11 regardless. -/
theorem C9_counterexample :
    heatmap_index [⟨2020, 5, "AJACCIO", 1⟩] = [5] ∧
    heatmap_index [⟨2020, 5, "AJACCIO", 1⟩] ≠ [1, 2, 3, 4, 5, 6, 7, 8, 9, 10, 11, 12] ∧
    month_labels.length = 12 := by
  refine ⟨by decide, by decide, by decide⟩

/-- C9, amended.  The heatmap grid rows are exactly the distinct months
present in the aggregated data, in increasing calendar order, while the
twelve fixed French labels Jan through Déc are assigned to tick positions
0-11 unconditionally; the labels therefore match the rows only when all
twelve months occur in the data. -/
theorem C9_amended (rows : List CountRow) :
    List.Sorted (· ≤ ·) (heatmap_index rows) ∧
    (heatmap_index rows).Nodup ∧
    (∀ m : Nat, m ∈ heatmap_index rows ↔ ∃ r ∈ rows, r.month = m) ∧
    month_labels.length = 12 := by
  refine ⟨List.sorted_insertionSort _ _, ?_, ?_, by decide⟩
  · exact (List.perm_insertionSort _ _).symm.nodup
      (List.nodup_dedup ((heatmap_df rows).map (fun p => p.1.2)))
  · intro m
    unfold heatmap_index
    rw [(List.perm_insertionSort _ _).mem_iff, List.mem_dedup]
    unfold heatmap_df
    rw [List.map_map]
    constructor
    · intro hm
      rcases List.mem_map.mp hm with ⟨k, hk, hv⟩
      rcases (hm_keys_mem rows k).mp hk with ⟨r, hr, hrk⟩
      exact ⟨r, hr, by rw [← hrk] at hv; exact hv⟩
    · rintro ⟨r, hr, rfl⟩
      exact List.mem_map.mpr ⟨(r.year, r.month),
        (hm_keys_mem rows (r.year, r.month)).mpr ⟨r, hr, rfl⟩, rfl⟩

/-! ### Choropleth renderer (src/main.py lines 71-90 and 140-142) -/

/-- A commune boundary feature of `communes-corse.geojson`, after line 141
has normalized its `nom` property; the polygon geometry plays no role in
the joined data and is omitted. -/
structure Boundary where
  nom : String
deriving DecidableEq

/-- One row of the ranked per-commune table returned by `create_barplot`
(name and summed count). -/
structure CommuneCount where
  nomcommuneprinc : String
  count : Nat
deriving DecidableEq

/-- The rows a left join contributes for one boundary: a single row with a
missing (`NaN`) count when no count row matches the boundary name, and one
row per matching count row otherwise. -/
def merge_block (df : List CommuneCount) (b : Boundary) : List (String × Option Nat) :=
  match df.filter (fun r => decide (r.nomcommuneprinc = b.nom)) with
  | [] => [(b.nom, none)]
  | ms => ms.map (fun r => (b.nom, some r.count))

/-- Line 72: `gdf.merge(df, left_on='nom', right_on='nomcommuneprinc',
how='left')`.  Every boundary row is kept, expanded by its matches. -/
def merge_left (gdf : List Boundary) (df : List CommuneCount) : List (String × Option Nat) :=
  gdf.flatMap (merge_block df)

/-- Line 73: `merged_df['count'].fillna(0, inplace=True)`. -/
def fillna_zero (l : List (String × Option Nat)) : List (String × Nat) :=
  l.map (fun p => (p.1, p.2.getD 0))

/-- The joined choropleth dataset: left join then zero fill. -/
def merged_data (gdf : List Boundary) (df : List CommuneCount) : List (String × Nat) :=
  fillna_zero (merge_left gdf df)

/-- A duplicate-free name column admits at most one filter match. -/
theorem filter_name_length_le_one (df : List CommuneCount) (x : String)
    (h : (df.map (fun r => r.nomcommuneprinc)).Nodup) :
    (df.filter (fun r => decide (r.nomcommuneprinc = x))).length ≤ 1 := by
  induction df with
  | nil => simp
  | cons r rest ih =>
    have hmap : ((r :: rest).map (fun s => s.nomcommuneprinc)) =
        r.nomcommuneprinc :: rest.map (fun s => s.nomcommuneprinc) := rfl
    rw [hmap] at h
    have hnd := List.nodup_cons.mp h
    by_cases hr : r.nomcommuneprinc = x
    · rw [List.filter_cons, if_pos (by simp [hr])]
      have hrest : rest.filter (fun s => decide (s.nomcommuneprinc = x)) = [] := by
        rw [List.filter_eq_nil_iff]
        intro s hs
        simp only [decide_eq_true_eq]
        intro hsx
        exact hnd.1 (by
          rw [hr, ← hsx]
          exact List.mem_map_of_mem (fun t => t.nomcommuneprinc) hs)
      rw [hrest]
      simp
    · rw [List.filter_cons, if_neg (by simp [hr])]
      exact ih hnd.2

/-- C6.  The left join keeps one entry per boundary polygon when the count
table has one row per commune: the joined dataset has exactly one entry per
polygon, every polygon contributes an entry with its name, and a polygon
whose name matches no commune of the count table appears with count 0
rather than being dropped. -/
theorem C6_left_join_fill (gdf : List Boundary) (df : List CommuneCount)
    (h : (df.map (fun r => r.nomcommuneprinc)).Nodup) :
    (merged_data gdf df).length = gdf.length ∧
    (∀ b ∈ gdf, ∃ c : Nat, (b.nom, c) ∈ merged_data gdf df) ∧
    (∀ b ∈ gdf, (∀ r ∈ df, r.nomcommuneprinc ≠ b.nom) →
      (b.nom, 0) ∈ merged_data gdf df) := by
  have hblock_len : ∀ b : Boundary, (merge_block df b).length = 1 := by
    intro b
    unfold merge_block
    cases hm : df.filter (fun r => decide (r.nomcommuneprinc = b.nom)) with
    | nil => rfl
    | cons m ms =>
      have hle := filter_name_length_le_one df b.nom h
      rw [hm] at hle
      simp only [List.length_cons] at hle
      simp only [List.length_map, List.length_cons]
      omega
  have hblock_none : ∀ b : Boundary,
      (∀ r ∈ df, r.nomcommuneprinc ≠ b.nom) → merge_block df b = [(b.nom, none)] := by
    intro b hnone
    unfold merge_block
    have hm : df.filter (fun r => decide (r.nomcommuneprinc = b.nom)) = [] := by
      rw [List.filter_eq_nil_iff]
      intro r hr
      simp only [decide_eq_true_eq]
      exact hnone r hr
    rw [hm]
  have hblock_some : ∀ b : Boundary, ∃ c : Option Nat, (b.nom, c) ∈ merge_block df b := by
    intro b
    unfold merge_block
    cases hm : df.filter (fun r => decide (r.nomcommuneprinc = b.nom)) with
    | nil => exact ⟨none, List.mem_singleton.mpr rfl⟩
    | cons m ms =>
      exact ⟨some m.count, List.mem_map.mpr ⟨m, List.mem_cons_self m ms, rfl⟩⟩
  refine ⟨?_, ?_, ?_⟩
  · unfold merged_data fillna_zero merge_left
    rw [List.length_map, List.length_flatMap]
    have hmap : gdf.map (List.length ∘ merge_block df) = gdf.map (fun _ => 1) :=
      List.map_congr_left (fun b _ => hblock_len b)
    rw [hmap]
    simp
  · intro b hb
    rcases hblock_some b with ⟨c, hc⟩
    exact ⟨c.getD 0, List.mem_map.mpr ⟨(b.nom, c),
      List.mem_flatMap.mpr ⟨b, hb, hc⟩, rfl⟩⟩
  · intro b hb hnone
    refine List.mem_map.mpr ⟨(b.nom, none), ?_, rfl⟩
    refine List.mem_flatMap.mpr ⟨b, hb, ?_⟩
    rw [hblock_none b hnone]
    exact List.mem_singleton.mpr rfl

/-- C6, witness: with boundaries AJACCIO and BASTIA and a count table
holding only AJACCIO, the joined dataset has two entries and BASTIA is
zero-filled. -/
theorem C6_left_join_fill_witness :
    (merged_data [⟨"AJACCIO"⟩, ⟨"BASTIA"⟩] [⟨"AJACCIO", 5⟩]).length = 2 ∧
    (∃ c : Nat, ("BASTIA", c) ∈ merged_data [⟨"AJACCIO"⟩, ⟨"BASTIA"⟩] [⟨"AJACCIO", 5⟩]) ∧
    ("BASTIA", 0) ∈ merged_data [⟨"AJACCIO"⟩, ⟨"BASTIA"⟩] [⟨"AJACCIO", 5⟩] := by
  have h := C6_left_join_fill [⟨"AJACCIO"⟩, ⟨"BASTIA"⟩] [⟨"AJACCIO", 5⟩] (by decide)
  exact ⟨h.1, h.2.1 ⟨"BASTIA"⟩ (by decide),
    h.2.2 ⟨"BASTIA"⟩ (by decide) (by decide)⟩

/-! ### The 95th-percentile color cap (src/main.py lines 74 and 80)

`Series.quantile(0.95)` uses the default linear interpolation: with the
values sorted increasingly and h = 0.95 * (n - 1), the result is
s[floor h] + (h - floor h) * (s[floor h + 1] - s[floor h]).  We compute in
`ℚ`; the floor of a nonnegative rational is its numerator divided by its
denominator. -/

/-- Floor of a nonnegative rational, as a natural number. -/
def ratFloorNat (q : ℚ) : Nat := q.num.toNat / q.den

/-- The interpolation position of quantile `q` in `n` sorted values. -/
def qPos (q : ℚ) (n : Nat) : ℚ := q * ((n : ℚ) - 1)

/-- The input values in increasing order. -/
def sortedVals (xs : List ℚ) : List ℚ := List.insertionSort (· ≤ ·) xs

/-- The sorted value at the floored interpolation position. -/
def qLo (q : ℚ) (xs : List ℚ) : ℚ :=
  (sortedVals xs).getD (ratFloorNat (qPos q xs.length)) 0

/-- The sorted value one past the floored interpolation position (at the
top position the lower value is reused, making the interpolation exact). -/
def qHi (q : ℚ) (xs : List ℚ) : ℚ :=
  (sortedVals xs).getD (ratFloorNat (qPos q xs.length) + 1) (qLo q xs)

/-- `Series.quantile(q)` with the default linear interpolation.  pandas
returns NaN on an empty series; the 0 returned here is only reached when
the boundary file is empty, which no theorem below relies on. -/
def pandasQuantile (q : ℚ) (xs : List ℚ) : ℚ :=
  if xs = [] then 0
  else qLo q xs +
    (qPos q xs.length - (ratFloorNat (qPos q xs.length) : ℚ)) * (qHi q xs - qLo q xs)

/-- Line 74: `top_tier_value = merged_df['count'].quantile(0.95)`, computed
over the zero-filled counts of all joined communes. -/
def top_tier_value (gdf : List Boundary) (df : List CommuneCount) : ℚ :=
  pandasQuantile (95 / 100) ((merged_data gdf df).map (fun p => (p.2 : ℚ)))

/-- Line 80: `range_color=(0, top_tier_value)`. -/
def range_color (gdf : List Boundary) (df : List CommuneCount) : ℚ × ℚ :=
  (0, top_tier_value gdf df)

/-- Modelled from the spec: plotly renders a value through a continuous
color scale bounded by `range_color` by clamping it into the bounds, so
values above the upper bound render at the maximal color of the scale.
The clamped scale position of a value. -/
def color_scale_value (lo hi c : ℚ) : ℚ := max lo (min hi c)

/-- The floored position is at most the position, for a nonnegative
position. -/
theorem ratFloorNat_le (q : ℚ) (h0 : 0 ≤ q) : (ratFloorNat q : ℚ) ≤ q := by
  unfold ratFloorNat
  have hnum : (0 : ℤ) ≤ q.num := Rat.num_nonneg.mpr h0
  have hq : ((q.num.toNat : ℚ)) / (q.den : ℚ) = q := by
    have h1 : ((q.num.toNat : ℚ)) = ((q.num : ℚ)) := by
      exact_mod_cast Int.toNat_of_nonneg hnum
    rw [h1]
    exact Rat.num_div_den q
  have hdpos : (0 : ℚ) < (q.den : ℚ) := by exact_mod_cast q.den_pos
  conv_rhs => rw [← hq]
  rw [le_div_iff₀ hdpos]
  exact_mod_cast Nat.div_mul_le_self q.num.toNat q.den

/-- The position is below the floored position plus one, for a nonnegative
position. -/
theorem lt_ratFloorNat_add_one (q : ℚ) (h0 : 0 ≤ q) :
    q < (ratFloorNat q : ℚ) + 1 := by
  unfold ratFloorNat
  have hnum : (0 : ℤ) ≤ q.num := Rat.num_nonneg.mpr h0
  have hq : ((q.num.toNat : ℚ)) / (q.den : ℚ) = q := by
    have h1 : ((q.num.toNat : ℚ)) = ((q.num : ℚ)) := by
      exact_mod_cast Int.toNat_of_nonneg hnum
    rw [h1]
    exact Rat.num_div_den q
  have hdpos : (0 : ℚ) < (q.den : ℚ) := by exact_mod_cast q.den_pos
  conv_lhs => rw [← hq]
  rw [div_lt_iff₀ hdpos]
  have hnat : q.num.toNat < (q.num.toNat / q.den + 1) * q.den := by
    have hmod := Nat.div_add_mod q.num.toNat q.den
    have hlt : q.num.toNat % q.den < q.den := Nat.mod_lt _ q.den_pos
    have hexp : (q.num.toNat / q.den + 1) * q.den =
        q.den * (q.num.toNat / q.den) + q.den := by ring
    omega
  calc (q.num.toNat : ℚ) < (((q.num.toNat / q.den + 1) * q.den : Nat) : ℚ) := by
        exact_mod_cast hnat
    _ = ((q.num.toNat / q.den : Nat) : ℚ) * (q.den : ℚ) + (q.den : ℚ) := by
        push_cast
        ring
    _ = (((q.num.toNat / q.den : Nat) : ℚ) + 1) * (q.den : ℚ) := by ring

/-- A position known to lie in the unit interval starting at `k` floors to
`k`. -/
theorem ratFloorNat_eq_of_bounds (q : ℚ) (k : Nat) (h1 : (k : ℚ) ≤ q)
    (h2 : q < (k : ℚ) + 1) : ratFloorNat q = k := by
  have h0 : 0 ≤ q := le_trans (by exact_mod_cast Nat.zero_le k) h1
  have ha := ratFloorNat_le q h0
  have hb := lt_ratFloorNat_add_one q h0
  have hik : (ratFloorNat q : ℚ) < (k : ℚ) + 1 := lt_of_le_of_lt ha h2
  have hki : (k : ℚ) < (ratFloorNat q : ℚ) + 1 := lt_of_le_of_lt h1 hb
  have hik' : ratFloorNat q < k + 1 := by exact_mod_cast hik
  have hki' : k < ratFloorNat q + 1 := by exact_mod_cast hki
  omega

/-- An indexed read with a nonnegative default from a list of nonnegative
values is nonnegative. -/
theorem getD_nonneg (l : List ℚ) (hl : ∀ x ∈ l, 0 ≤ x) (i : Nat) (d : ℚ)
    (hd : 0 ≤ d) : 0 ≤ l.getD i d := by
  rw [List.getD_eq_getElem?_getD]
  cases hv : l[i]? with
  | none => simpa using hd
  | some v =>
    have hmem : v ∈ l := List.getElem?_mem hv
    simpa using hl v hmem

/-- The quantile of a list of nonnegative values at a quantile level in
the unit interval is nonnegative. -/
theorem pandasQuantile_nonneg (q : ℚ) (xs : List ℚ) (hq0 : 0 ≤ q)
    (hxs : ∀ x ∈ xs, 0 ≤ x) : 0 ≤ pandasQuantile q xs := by
  unfold pandasQuantile
  by_cases hne : xs = []
  · rw [if_pos hne]
  · rw [if_neg hne]
    have hlen : 1 ≤ xs.length := by
      cases xs with
      | nil => exact absurd rfl hne
      | cons x xs => simp
    have hpos0 : 0 ≤ qPos q xs.length := by
      unfold qPos
      apply mul_nonneg hq0
      have : (1 : ℚ) ≤ (xs.length : ℚ) := by exact_mod_cast hlen
      linarith
    have hsorted_nonneg : ∀ x ∈ sortedVals xs, 0 ≤ x := by
      intro x hx
      exact hxs x ((List.perm_insertionSort (· ≤ ·) xs).mem_iff.mp hx)
    have hlo : 0 ≤ qLo q xs := getD_nonneg _ hsorted_nonneg _ 0 le_rfl
    have hhi : 0 ≤ qHi q xs := getD_nonneg _ hsorted_nonneg _ _ hlo
    have hfrac0 : 0 ≤ qPos q xs.length - (ratFloorNat (qPos q xs.length) : ℚ) := by
      have := ratFloorNat_le (qPos q xs.length) hpos0
      linarith
    have hfrac1 : qPos q xs.length - (ratFloorNat (qPos q xs.length) : ℚ) ≤ 1 := by
      have := lt_ratFloorNat_add_one (qPos q xs.length) hpos0
      linarith
    have hrw : qLo q xs +
        (qPos q xs.length - (ratFloorNat (qPos q xs.length) : ℚ)) * (qHi q xs - qLo q xs) =
        (1 - (qPos q xs.length - (ratFloorNat (qPos q xs.length) : ℚ))) * qLo q xs +
          (qPos q xs.length - (ratFloorNat (qPos q xs.length) : ℚ)) * qHi q xs := by
      ring
    rw [hrw]
    exact add_nonneg (mul_nonneg (by linarith) hlo) (mul_nonneg hfrac0 hhi)

/-- C7.  The color scale of the choropleth has lower bound 0 and upper
bound the 95th percentile (default linear interpolation) of the count
values across all joined communes after zero-filling; the upper bound is
nonnegative, and every joined commune whose count exceeds it is rendered
at the maximal color of the scale. -/
theorem C7_percentile_cap (gdf : List Boundary) (df : List CommuneCount) :
    (range_color gdf df).1 = 0 ∧
    (range_color gdf df).2 =
      pandasQuantile (95 / 100) ((merged_data gdf df).map (fun p => (p.2 : ℚ))) ∧
    0 ≤ (range_color gdf df).2 ∧
    (∀ p ∈ merged_data gdf df, (range_color gdf df).2 < (p.2 : ℚ) →
      color_scale_value 0 (range_color gdf df).2 (p.2 : ℚ) =
        (range_color gdf df).2) := by
  have hnonneg : 0 ≤ (range_color gdf df).2 := by
    apply pandasQuantile_nonneg _ _ (by norm_num)
    intro x hx
    rcases List.mem_map.mp hx with ⟨p, _, rfl⟩
    exact_mod_cast Nat.zero_le p.2
  refine ⟨rfl, rfl, hnonneg, ?_⟩
  intro p _ hlt
  unfold color_scale_value
  rw [min_eq_left (le_of_lt hlt), max_eq_right hnonneg]

/-- C7, witness: with boundaries A and B and a single count row giving B
the count 10, the joined counts are 0 and 10, the 95th percentile is 9.5,
and the commune with count 10 renders at the maximal color. -/
theorem C7_percentile_cap_witness :
    color_scale_value 0 (range_color [⟨"A"⟩, ⟨"B"⟩] [⟨"B", 10⟩]).2 ((10 : Nat) : ℚ) =
      (range_color [⟨"A"⟩, ⟨"B"⟩] [⟨"B", 10⟩]).2 := by
  refine (C7_percentile_cap [⟨"A"⟩, ⟨"B"⟩] [⟨"B", 10⟩]).2.2.2 ("B", 10) (by decide) ?_
  have hmerged : merged_data [⟨"A"⟩, ⟨"B"⟩] [⟨"B", 10⟩] = [("A", 0), ("B", 10)] := by
    decide
  have hval : (range_color [⟨"A"⟩, ⟨"B"⟩] [⟨"B", 10⟩]).2 = 19 / 2 := by
    show top_tier_value [⟨"A"⟩, ⟨"B"⟩] [⟨"B", 10⟩] = 19 / 2
    unfold top_tier_value
    rw [hmerged]
    have hcast : ([("A", 0), ("B", 10)] : List (String × Nat)).map
        (fun p => (p.2 : ℚ)) = [0, 10] := by
      norm_num
    rw [hcast]
    have hfloor : ratFloorNat (qPos (95 / 100) ([(0 : ℚ), 10].length)) = 0 := by
      apply ratFloorNat_eq_of_bounds
      · norm_num [qPos]
      · norm_num [qPos]
    have hsort : sortedVals [(0 : ℚ), 10] = [0, 10] := by
      norm_num [sortedVals, List.insertionSort, List.orderedInsert]
    unfold pandasQuantile
    rw [if_neg (by simp)]
    unfold qHi qLo
    rw [hfloor, hsort]
    norm_num [qPos]
  rw [hval]
  norm_num

/-! ### Bar renderer sorting (src/main.py line 52)

Line 52 sorts the per-commune totals with
`sort_values('count', ascending=False)` under the pandas default sort kind
`quicksort`.  pandas computes the row order with `nargsort`
(pandas/core/sorting.py): for a descending sort it reverses the values,
argsorts them ascending with numpy, and reverses the resulting indexer (the
count column is an integer column, so the NaN handling of nargsort is
inert).  numpy `argsort(kind='quicksort')` is introsort
(numpy npysort/quicksort.c.src, aquicksort): median-of-three quicksort
partitioning down to segments of at most 16 indices, an insertion sort on
small segments, and an argsort heapsort (npysort/heapsort.c.src,
aheapsort) once the depth limit 2*msb(n) is exhausted.  The functions below
transcribe those routines; the loops carry explicit fuel, always
sufficient for the loop bounds of the transcribed code. -/

/-- An indexed read of a numpy index array, modelled on lists. -/
def lget (l : List Nat) (i : Nat) : Nat := l.getD i 0

/-- Swapping two cells of an index array. -/
def lswap (t : List Nat) (i j : Nat) : List Nat :=
  (t.set i (lget t j)).set j (lget t i)

/-- The do-while scan `do ++pi; while (v[tosort[pi]] < vp)` of the
partition loop: the first position after `pi` whose key is not below the
pivot. -/
def scanUp (fuel : Nat) (v t : List Nat) (vp : Nat) (pi : Nat) : Nat :=
  match fuel with
  | 0 => pi + 1
  | fuel + 1 =>
    if lget v (lget t (pi + 1)) < vp then scanUp fuel v t vp (pi + 1) else pi + 1

/-- The do-while scan `do --pj; while (vp < v[tosort[pj]])`. -/
def scanDown (fuel : Nat) (v t : List Nat) (vp : Nat) (pj : Nat) : Nat :=
  match fuel with
  | 0 => pj - 1
  | fuel + 1 =>
    if vp < lget v (lget t (pj - 1)) then scanDown fuel v t vp (pj - 1) else pj - 1

/-- The inner partition exchange loop of aquicksort: scan up and down, stop
when the cursors cross, otherwise swap and continue. -/
def partLoop (fuel : Nat) (v t : List Nat) (vp : Nat) (pi pj : Nat) : List Nat × Nat :=
  match fuel with
  | 0 => (t, pi)
  | fuel + 1 =>
    let pi1 := scanUp (t.length + 1) v t vp pi
    let pj1 := scanDown (t.length + 1) v t vp pj
    if pj1 ≤ pi1 then (t, pi1)
    else partLoop fuel v (lswap t pi1 pj1) vp pi1 pj1

/-- One median-of-three partition step of aquicksort on the segment
`[pl, pr]`: order the first, middle and last keys, tuck the pivot at
`pr - 1`, run the exchange loop and restore the pivot; returns the array
and the pivot position. -/
def partitionStep (v t : List Nat) (pl pr : Nat) : List Nat × Nat :=
  let pm := pl + (pr - pl) / 2
  let t1 := if lget v (lget t pm) < lget v (lget t pl) then lswap t pm pl else t
  let t2 := if lget v (lget t1 pr) < lget v (lget t1 pm) then lswap t1 pr pm else t1
  let t3 := if lget v (lget t2 pm) < lget v (lget t2 pl) then lswap t2 pm pl else t2
  let vp := lget v (lget t3 pm)
  let t4 := lswap t3 pm (pr - 1)
  let p := partLoop (t.length + 2) v t4 vp pl (pr - 1)
  (lswap p.1 p.2 (pr - 1), p.2)

/-- One cell read of the 1-based heap view of the segment starting at
`pl`. -/
def hsGet (t : List Nat) (pl i : Nat) : Nat := lget t (pl + i - 1)

/-- One cell write of the 1-based heap view. -/
def hsSet (t : List Nat) (pl i x : Nat) : List Nat := t.set (pl + i - 1) x

/-- The sift-down loop shared by both phases of aheapsort: walk the larger
child while it beats the sifted index `tmp`, then drop `tmp`. -/
def siftDown (fuel : Nat) (v t : List Nat) (pl : Nat) (tmp : Nat) (i j n : Nat) :
    List Nat :=
  match fuel with
  | 0 => hsSet t pl i tmp
  | fuel + 1 =>
    if j ≤ n then
      let j1 := if j < n ∧ lget v (hsGet t pl j) < lget v (hsGet t pl (j + 1)) then
        j + 1 else j
      if lget v tmp < lget v (hsGet t pl j1) then
        siftDown fuel v (hsSet t pl i (hsGet t pl j1)) pl tmp j1 (j1 + j1) n
      else hsSet t pl i tmp
    else hsSet t pl i tmp

/-- The heap construction phase of aheapsort: sift positions n/2 down to
1. -/
def heapifyLoop : Nat → (v t : List Nat) → (pl n : Nat) → List Nat
  | 0, _, t, _, _ => t
  | l + 1, v, t, pl, n =>
    heapifyLoop l v (siftDown (n + 2) v t pl (hsGet t pl (l + 1)) (l + 1) ((l + 1) * 2) n) pl n

/-- The extraction phase of aheapsort: repeatedly move the root to the end
of the shrinking heap and sift the displaced index down. -/
def extractLoop : Nat → (v t : List Nat) → (pl : Nat) → List Nat
  | 0, _, t, _ => t
  | 1, _, t, _ => t
  | n + 2, v, t, pl =>
    let tmp := hsGet t pl (n + 2)
    let t1 := hsSet t pl (n + 2) (hsGet t pl 1)
    extractLoop (n + 1) v (siftDown (n + 3) v t1 pl tmp 1 2 (n + 1)) pl

/-- aheapsort on the segment of `n` indices starting at `pl`. -/
def aheapsortSeg (v t : List Nat) (pl n : Nat) : List Nat :=
  extractLoop n v (heapifyLoop (n / 2) v t pl n) pl

/-- The insertion of one index into the sorted prefix, as the inner
insertion-sort loop of aquicksort performs it: the new index moves left
past strictly greater keys, so it lands after every index with a key not
above its own. -/
def aInsert (v : List Nat) (vi : Nat) : List Nat → List Nat
  | [] => [vi]
  | b :: bs => if lget v vi < lget v b then vi :: b :: bs else b :: aInsert v vi bs

/-- The insertion-sort phase of aquicksort over a whole segment, taken left
to right; this is the functional content of the imperative loop, which
computes the stable insertion sort of the segment. -/
def aInsertionSort (v : List Nat) (l : List Nat) : List Nat :=
  l.foldl (fun acc vi => aInsert v vi acc) []

/-- The insertion-sort phase applied to the segment `[pl, pr]` of the index
array, leaving the rest in place. -/
def insertionPass (v t : List Nat) (pl pr : Nat) : List Nat :=
  t.take pl ++ aInsertionSort v ((t.drop pl).take (pr + 1 - pl)) ++ t.drop (pr + 1)

/-- The msb helper of numpy (npy_get_msb): the floor base-2 logarithm,
written with structural fuel. -/
def msbAux : Nat → Nat → Nat
  | 0, _ => 0
  | fuel + 1, n => if n ≤ 1 then 0 else msbAux fuel (n / 2) + 1

/-- npy_get_msb. -/
def npyGetMsb (n : Nat) : Nat := msbAux n n

/-- The outer loop of aquicksort: partition segments longer than 16 (going
to heapsort when the depth budget runs out), insertion sort the small ones,
and pop the pending segment stack. -/
def aquicksortLoop : Nat → (v t : List Nat) → (pl pr : Nat) → (depth : Int) →
    (stack : List (Nat × Nat)) → List Nat
  | 0, _, t, _, _, _, _ => t
  | fuel + 1, v, t, pl, pr, depth, stack =>
    if 15 < pr - pl then
      if depth < 0 then
        let t1 := aheapsortSeg v t pl (pr - pl + 1)
        match stack with
        | [] => t1
        | (pl2, pr2) :: rest => aquicksortLoop fuel v t1 pl2 pr2 (depth - 1) rest
      else
        let p := partitionStep v t pl pr
        if p.2 - pl < pr - p.2 then
          aquicksortLoop fuel v p.1 pl (p.2 - 1) (depth - 1) ((p.2 + 1, pr) :: stack)
        else
          aquicksortLoop fuel v p.1 (p.2 + 1) pr (depth - 1) ((pl, p.2 - 1) :: stack)
    else
      let t1 := insertionPass v t pl pr
      match stack with
      | [] => t1
      | (pl2, pr2) :: rest => aquicksortLoop fuel v t1 pl2 pr2 depth rest

/-- Fuel for the outer loop: introsort pushes and pops at most one segment
per placed pivot, so the outer loop runs far fewer rounds than this. -/
def qsFuel (n : Nat) : Nat := n * n + 64

/-- numpy `argsort(kind='quicksort')` of the keys `v` over the index array
`t`. -/
def aquicksort (v t : List Nat) : List Nat :=
  aquicksortLoop (qsFuel t.length) v t 0 (t.length - 1) (2 * (npyGetMsb t.length : Int)) []

/-- pandas `nargsort(counts, ascending=False)`: reverse the values, argsort
them ascending with numpy, map the positions back through the reversal and
reverse the indexer. -/
def nargsortDesc (counts : List Nat) : List Nat :=
  ((aquicksort counts.reverse (List.range counts.length)).map
    (fun i => counts.length - 1 - i)).reverse

/-- Line 52, first half: `df.groupby('nomcommuneprinc').agg({'count':
'sum'}).reset_index()`, one row per distinct commune in sorted name order,
carrying the commune's summed count. -/
def commune_groupby (df : List CountRow) : List CommuneCount :=
  (List.insertionSort strLe
      ((df.map (fun r => r.nomcommuneprinc)).dedup)).map
    (fun name => ⟨name,
      ((df.filter (fun r => decide (r.nomcommuneprinc = name))).map
        (fun r => r.count)).sum⟩)

/-- Line 52, second half: the row order `sort_values('count',
ascending=False)` produces, as positions into the grouped table. -/
def barplot_indexer (df : List CountRow) : List Nat :=
  nargsortDesc ((commune_groupby df).map (fun g => g.count))

/-- The ranked per-commune table `commune_counts` returned by
`create_barplot` for the choropleth stage. -/
def create_barplot_table (df : List CountRow) : List CommuneCount :=
  (barplot_indexer df).map (fun i => (commune_groupby df).getD i ⟨"", 0⟩)

/-- C5, counterexample input: seventeen communes (so that numpy leaves its
stable insertion sort for quicksort partitioning), named in their sorted
group order, with totals 2 and 1 arranged to expose the tie
reordering. -/
def c5df : List CountRow :=
  [⟨2020, 1, "C01", 2⟩, ⟨2020, 1, "C02", 2⟩, ⟨2020, 1, "C03", 1⟩,
   ⟨2020, 1, "C04", 2⟩, ⟨2020, 1, "C05", 2⟩, ⟨2020, 1, "C06", 2⟩,
   ⟨2020, 1, "C07", 2⟩, ⟨2020, 1, "C08", 1⟩, ⟨2020, 1, "C09", 2⟩,
   ⟨2020, 1, "C10", 1⟩, ⟨2020, 1, "C11", 2⟩, ⟨2020, 1, "C12", 2⟩,
   ⟨2020, 1, "C13", 1⟩, ⟨2020, 1, "C14", 2⟩, ⟨2020, 1, "C15", 2⟩,
   ⟨2020, 1, "C16", 2⟩, ⟨2020, 1, "C17", 1⟩]

/-- C5, counterexample.  The claim asserts the ranked table is sorted
non-increasingly with equal totals kept in their original group order (a
stable descending sort, which is the insertion sort by non-increasing
count).  On a table of seventeen communes the pandas pipeline reaches
numpy quicksort partitioning: in group order the tied communes C15 and C16
(totals 2 and 2, positions 14 and 15 of the grouped table) come out as C16
before C15 at positions 2 and 3 of the ranked table, so the output differs
from the stable descending sort the claim describes. -/
theorem C5_counterexample :
    (commune_groupby c5df).getD 14 ⟨"", 0⟩ = ⟨"C15", 2⟩ ∧
    (commune_groupby c5df).getD 15 ⟨"", 0⟩ = ⟨"C16", 2⟩ ∧
    (create_barplot_table c5df).getD 2 ⟨"", 0⟩ = ⟨"C16", 2⟩ ∧
    (create_barplot_table c5df).getD 3 ⟨"", 0⟩ = ⟨"C15", 2⟩ ∧
    create_barplot_table c5df ≠
      List.insertionSort (fun a b : CommuneCount => b.count ≤ a.count)
        (commune_groupby c5df) := by
  refine ⟨by decide, by decide, by decide, by decide, by decide⟩

/-! ### Properties of the descending sort on small tables

For at most sixteen indices aquicksort is its insertion-sort phase, a
stable ascending argsort; combined with the two reversals of nargsort, the
descending order it produces on such inputs is exactly the stable
descending sort. -/

/-- The strict order the stable ascending argsort realises on distinct
indices: by key, and by position for equal keys. -/
def TvRel (v : List Nat) (i j : Nat) : Prop :=
  lget v i < lget v j ∨ (lget v i = lget v j ∧ i < j)

/-- On a segment of at most sixteen indices and an empty pending stack,
the outer loop of aquicksort is one insertion pass. -/
theorem aquicksortLoop_small (fuel : Nat) (v t : List Nat) (pl pr : Nat) (depth : Int)
    (h : pr - pl ≤ 15) :
    aquicksortLoop (fuel + 1) v t pl pr depth [] = insertionPass v t pl pr := by
  simp only [aquicksortLoop]
  rw [if_neg (by omega)]

/-- The insertion pass over the whole array is the stable insertion
sort. -/
theorem insertionPass_full (v t : List Nat) :
    insertionPass v t 0 (t.length - 1) = aInsertionSort v t := by
  unfold insertionPass
  cases t with
  | nil => rfl
  | cons x xs =>
    have h1 : (x :: xs).length - 1 + 1 - 0 = (x :: xs).length := by
      simp
    have h2 : (x :: xs).length - 1 + 1 = (x :: xs).length := by
      simp
    rw [h1, h2, List.take_zero, List.drop_zero, List.take_length, List.drop_length,
      List.nil_append, List.append_nil]

/-- aquicksort on at most sixteen indices is the stable insertion sort. -/
theorem aquicksort_small (v t : List Nat) (h : t.length ≤ 16) :
    aquicksort v t = aInsertionSort v t := by
  unfold aquicksort
  have hf : qsFuel t.length = (t.length * t.length + 63) + 1 := by
    unfold qsFuel
    omega
  rw [hf, aquicksortLoop_small _ _ _ _ _ _ (by omega)]
  exact insertionPass_full v t

/-- Inserting an index larger than every index of a sorted accumulator
keeps the accumulator sorted for `TvRel` and permutes the expected
elements. -/
theorem aInsert_spec (v : List Nat) (vi : Nat) :
    ∀ acc : List Nat, List.Pairwise (TvRel v) acc → (∀ j ∈ acc, j < vi) →
      List.Pairwise (TvRel v) (aInsert v vi acc) ∧ (aInsert v vi acc).Perm (vi :: acc)
  | [], _, _ => ⟨List.pairwise_singleton _ _, List.Perm.refl _⟩
  | b :: bs, hacc, hlt => by
    rw [List.pairwise_cons] at hacc
    obtain ⟨hb, hbs⟩ := hacc
    unfold aInsert
    by_cases hv : lget v vi < lget v b
    · rw [if_pos hv]
      refine ⟨List.pairwise_cons.mpr ⟨?_, List.pairwise_cons.mpr ⟨hb, hbs⟩⟩,
        List.Perm.refl _⟩
      intro x hx
      rcases List.mem_cons.mp hx with rfl | hxbs
      · exact Or.inl hv
      · have hble : lget v b ≤ lget v x := by
          rcases hb x hxbs with hlt2 | ⟨heq, _⟩
          · exact le_of_lt hlt2
          · exact le_of_eq heq
        exact Or.inl (lt_of_lt_of_le hv hble)
    · rw [if_neg hv]
      have hltbs : ∀ j ∈ bs, j < vi := fun j hj => hlt j (List.mem_cons_of_mem b hj)
      obtain ⟨hp, hperm⟩ := aInsert_spec v vi bs hbs hltbs
      refine ⟨List.pairwise_cons.mpr ⟨?_, hp⟩,
        (hperm.cons b).trans (List.Perm.swap vi b bs)⟩
      intro x hx
      rcases List.mem_cons.mp (hperm.mem_iff.mp hx) with rfl | hxbs
      · rcases lt_or_eq_of_le (le_of_not_lt hv) with hlt2 | heq
        · exact Or.inl hlt2
        · exact Or.inr ⟨heq, hlt b (List.mem_cons_self b bs)⟩
      · exact hb x hxbs

/-- The left-to-right insertion fold of strictly increasing indices into a
sorted accumulator below them all yields a sorted permutation. -/
theorem aInsertionSort_go (v : List Nat) :
    ∀ (l acc : List Nat), List.Pairwise (TvRel v) acc → List.Pairwise (· < ·) l →
      (∀ j ∈ acc, ∀ i ∈ l, j < i) →
      List.Pairwise (TvRel v) (List.foldl (fun a x => aInsert v x a) acc l) ∧
      (List.foldl (fun a x => aInsert v x a) acc l).Perm (acc ++ l)
  | [], acc, hacc, _, _ => ⟨hacc, by simp⟩
  | vi :: rest, acc, hacc, hl, hcross => by
    rw [List.pairwise_cons] at hl
    obtain ⟨hvi, hrest⟩ := hl
    have hltacc : ∀ j ∈ acc, j < vi :=
      fun j hj => hcross j hj vi (List.mem_cons_self vi rest)
    obtain ⟨hp1, hperm1⟩ := aInsert_spec v vi acc hacc hltacc
    have hcross2 : ∀ j ∈ aInsert v vi acc, ∀ i ∈ rest, j < i := by
      intro j hj i hi
      rcases List.mem_cons.mp (hperm1.mem_iff.mp hj) with rfl | hjacc
      · exact hvi i hi
      · exact hcross j hjacc i (List.mem_cons_of_mem vi hi)
    obtain ⟨hp2, hperm2⟩ := aInsertionSort_go v rest (aInsert v vi acc) hp1 hrest hcross2
    refine ⟨hp2, ?_⟩
    refine hperm2.trans ?_
    exact (hperm1.append_right rest).trans List.perm_middle.symm

/-- The insertion-sort phase of aquicksort over strictly increasing
indices: the result is sorted for `TvRel` and is a permutation of the
input. -/
theorem aInsertionSort_spec (v l : List Nat) (hl : List.Pairwise (· < ·) l) :
    List.Pairwise (TvRel v) (aInsertionSort v l) ∧ (aInsertionSort v l).Perm l := by
  have h := aInsertionSort_go v l [] List.Pairwise.nil hl (by intro j hj; cases hj)
  exact ⟨h.1, by simpa using h.2⟩

/-- Reading the reversal at a valid position reads the mirrored
position. -/
theorem lget_reverse (l : List Nat) (i : Nat) (h : i < l.length) :
    lget l.reverse i = lget l (l.length - 1 - i) := by
  unfold lget
  have h1 : i < l.reverse.length := by simpa using h
  have h2 : l.length - 1 - i < l.length := by omega
  rw [List.getD_eq_getElem?_getD, List.getD_eq_getElem?_getD,
    List.getElem?_eq_getElem h1, List.getElem?_eq_getElem h2]
  simp [List.getElem_reverse]

/-- The mirroring map on the positions of `range n` reverses it. -/
theorem map_sub_range : ∀ n : Nat,
    (List.range n).map (fun i => n - 1 - i) = (List.range n).reverse
  | 0 => rfl
  | n + 1 => by
    rw [List.range_succ, List.map_append]
    have hlast : (List.map (fun i => n + 1 - 1 - i) [n]) = [0] := by
      simp
    have hcongr : (List.range n).map (fun i => n + 1 - 1 - i) =
        (List.range n).map (fun i => (n - 1 - i) + 1) := by
      apply List.map_congr_left
      intro i hi
      have := List.mem_range.mp hi
      omega
    rw [hlast, hcongr, show (fun i => (n - 1 - i) + 1) =
        (Nat.succ ∘ fun i => n - 1 - i) from rfl, ← List.map_map,
      map_sub_range n, List.map_reverse, ← List.reverse_cons,
      ← List.range_succ_eq_map, ← List.range_succ]

/-- Reading back the whole table through `range` of its length is the
identity. -/
theorem map_getD_range {α : Type} (g : List α) (d : α) :
    (List.range g.length).map (fun i => g.getD i d) = g := by
  apply List.ext_getElem
  · simp
  · intro i h1 h2
    simp only [List.getElem_map, List.getElem_range]
    rw [List.getD_eq_getElem?_getD, List.getElem?_eq_getElem h2]
    rfl

/-- pandas descending argsort of at most sixteen values: the positions come
out ordered by non-increasing value, with equal values ordered by
increasing original position (the stable descending order), and they are a
permutation of all positions. -/
theorem nargsortDesc_small (counts : List Nat) (h : counts.length ≤ 16) :
    List.Pairwise (fun x y => lget counts y ≤ lget counts x ∧
      (lget counts x = lget counts y → x < y)) (nargsortDesc counts) ∧
    (nargsortDesc counts).Perm (List.range counts.length) := by
  have hqs : aquicksort counts.reverse (List.range counts.length) =
      aInsertionSort counts.reverse (List.range counts.length) :=
    aquicksort_small _ _ (by rw [List.length_range]; exact h)
  have hspec := aInsertionSort_spec counts.reverse (List.range counts.length)
    (List.pairwise_lt_range _)
  rw [← hqs] at hspec
  obtain ⟨hpair, hperm⟩ := hspec
  have hmem : ∀ i ∈ aquicksort counts.reverse (List.range counts.length),
      i < counts.length := by
    intro i hi
    exact List.mem_range.mp (hperm.mem_iff.mp hi)
  constructor
  · unfold nargsortDesc
    rw [List.pairwise_reverse, List.pairwise_map]
    apply hpair.imp_of_mem
    intro a b ha hb hab
    have han : a < counts.length := hmem a ha
    have hbn : b < counts.length := hmem b hb
    have hga : lget counts.reverse a = lget counts (counts.length - 1 - a) :=
      lget_reverse counts a han
    have hgb : lget counts.reverse b = lget counts (counts.length - 1 - b) :=
      lget_reverse counts b hbn
    rcases hab with hlt | ⟨heq, hij⟩
    · rw [hga, hgb] at hlt
      exact ⟨le_of_lt hlt, fun he => absurd he (by omega)⟩
    · rw [hga, hgb] at heq
      exact ⟨le_of_eq heq, fun _ => by omega⟩
  · unfold nargsortDesc
    refine (List.reverse_perm _).trans ((hperm.map _).trans ?_)
    rw [map_sub_range]
    exact List.reverse_perm _

/-- Reading a count through the count column or through the table row is
the same at valid positions. -/
theorem getD_map_count (g : List CommuneCount) (x : Nat) (hx : x < g.length) :
    lget (g.map (fun t => t.count)) x = (g.getD x ⟨"", 0⟩).count := by
  unfold lget
  have hx2 : x < (g.map (fun t => t.count)).length := by simpa using hx
  rw [List.getD_eq_getElem?_getD, List.getD_eq_getElem?_getD,
    List.getElem?_eq_getElem hx2, List.getElem?_eq_getElem hx]
  simp [List.getElem_map]

/-- C5, amended.  For a grouped table of at most sixteen communes (where
numpy argsort is its stable insertion sort), the ranked table
`create_barplot` returns is ordered by non-increasing total, communes with
equal totals appear in their original group order (the sort behaves
stably), and the table is a permutation of the grouped table.  For larger
tables the code reaches numpy quicksort partitioning, which does not keep
equal totals in group order (see the seventeen-commune counterexample). -/
theorem C5_amended (df : List CountRow) (h : (commune_groupby df).length ≤ 16) :
    List.Pairwise (fun r s : CommuneCount => s.count ≤ r.count)
      (create_barplot_table df) ∧
    List.Pairwise (fun x y : Nat =>
      lget ((commune_groupby df).map (fun g => g.count)) x =
        lget ((commune_groupby df).map (fun g => g.count)) y → x < y)
      (barplot_indexer df) ∧
    (create_barplot_table df).Perm (commune_groupby df) := by
  have hlen : ((commune_groupby df).map (fun g => g.count)).length =
      (commune_groupby df).length := List.length_map _ _
  obtain ⟨hpair, hperm⟩ := nargsortDesc_small
    ((commune_groupby df).map (fun g => g.count)) (by rw [hlen]; exact h)
  have hmem : ∀ x ∈ barplot_indexer df, x < (commune_groupby df).length := by
    intro x hx
    have hx2 := hperm.mem_iff.mp hx
    rw [List.mem_range, hlen] at hx2
    exact hx2
  refine ⟨?_, ?_, ?_⟩
  · unfold create_barplot_table
    rw [List.pairwise_map]
    apply hpair.imp_of_mem
    intro a b ha hb hab
    have han : a < (commune_groupby df).length := hmem a ha
    have hbn : b < (commune_groupby df).length := hmem b hb
    have h1 := hab.1
    rw [getD_map_count _ _ han, getD_map_count _ _ hbn] at h1
    exact h1
  · exact hpair.imp (fun hab => hab.2)
  · unfold create_barplot_table
    have hp2 := hperm.map (fun i => (commune_groupby df).getD i ⟨"", 0⟩)
    have heq : (List.range (((commune_groupby df).map (fun g => g.count)).length)).map
        (fun i => (commune_groupby df).getD i ⟨"", 0⟩) = commune_groupby df := by
      rw [hlen]
      exact map_getD_range _ _
    rw [heq] at hp2
    exact hp2

/-- C5, witness for the amended theorem: a two-commune table with equal
totals comes out non-increasing, stable and as a permutation of the
grouped table. -/
theorem C5_amended_witness :
    List.Pairwise (fun r s : CommuneCount => s.count ≤ r.count)
      (create_barplot_table [⟨2020, 1, "AAA", 1⟩, ⟨2020, 2, "BBB", 1⟩]) ∧
    List.Pairwise (fun x y : Nat =>
      lget ((commune_groupby [⟨2020, 1, "AAA", 1⟩, ⟨2020, 2, "BBB", 1⟩]).map
          (fun g => g.count)) x =
        lget ((commune_groupby [⟨2020, 1, "AAA", 1⟩, ⟨2020, 2, "BBB", 1⟩]).map
          (fun g => g.count)) y → x < y)
      (barplot_indexer [⟨2020, 1, "AAA", 1⟩, ⟨2020, 2, "BBB", 1⟩]) ∧
    (create_barplot_table [⟨2020, 1, "AAA", 1⟩, ⟨2020, 2, "BBB", 1⟩]).Perm
      (commune_groupby [⟨2020, 1, "AAA", 1⟩, ⟨2020, 2, "BBB", 1⟩]) :=
  C5_amended [⟨2020, 1, "AAA", 1⟩, ⟨2020, 2, "BBB", 1⟩] (by decide)

end Potable
